import Mathlib

/-!
Shallow embedding of the `voronoice` utility module (`src/utils.rs`) and of the
spec-described collaborators it relies on, together with theorems settling the
frozen claims about it.

Conventions:
* Rust `usize` index arithmetic is modelled with `ℕ` (no realistic input
  approaches the 64-bit range in these index computations).
* Exact coordinate arithmetic is modelled with `ℚ`; for the one claim that is
  specifically about IEEE special values, an extended type `F` with `nan` and
  signed infinities is used.
* Out-of-range list reads (a panic in Rust) are modelled with `List.getD`;
  every theorem that relies on an in-range read proves the index in range.
-/

/-- The delaunator `EMPTY` sentinel, `usize::MAX`. -/
def EMPTY : ℕ := 2 ^ 64 - 1

/-- A 2D point with coordinates in `α` (delaunator `Point` has `f64` fields). -/
structure Point (α : Type) where
  x : α
  y : α
deriving DecidableEq, Repr

/-- The triangulation data consumed read-only by `utils.rs`
(delaunator `Triangulation`): `triangles` maps a half-edge index to its
originating site, `halfedges` maps a half-edge to its twin or `EMPTY`,
`hull` lists the hull sites. -/
structure Triangulation where
  triangles : List ℕ
  halfedges : List ℕ
  hull : List ℕ

/-- Modelled from the spec: `next_halfedge` comes from the external delaunator
crate (only a `use` of it appears in `src/utils.rs`); per spec §4.2 it is "the
following edge within the same triangle, cycling through 3 edges". -/
def next_halfedge (e : ℕ) : ℕ :=
  if e % 3 = 2 then e - 2 else e + 1

/-- `triangle_of_edge` from `src/utils.rs`: the triangle a half-edge belongs to. -/
def triangle_of_edge (edge : ℕ) : ℕ :=
  edge / 3

/-- `site_of_incoming` from `src/utils.rs`:
`triangulation.triangles[next_halfedge(e)]`. -/
def site_of_incoming (t : Triangulation) (e : ℕ) : ℕ :=
  t.triangles.getD (next_halfedge e) 0

/-- `calculate_approximated_cetroid` from `src/utils.rs` (sic), over exact
rationals: left fold accumulating coordinate sums, then one division each by
the number of points. -/
def calculate_approximated_cetroid (points : List (Point ℚ)) : Point ℚ :=
  let r := points.foldl (fun (r : Point ℚ) p => ⟨r.x + p.x, r.y + p.y⟩) ⟨0, 0⟩
  let n : ℚ := points.length
  ⟨r.x / n, r.y / n⟩

/-- The coordinate-wise running-sum fold of `calculate_approximated_cetroid`
computes the coordinate sums. -/
theorem foldl_add_points (pts : List (Point ℚ)) (init : Point ℚ) :
    pts.foldl (fun r p => (⟨r.x + p.x, r.y + p.y⟩ : Point ℚ)) init =
      ⟨init.x + (pts.map Point.x).sum, init.y + (pts.map Point.y).sum⟩ := by
  induction pts generalizing init with
  | nil => simp
  | cons p ps ih =>
    simp only [List.foldl_cons, List.map_cons, List.sum_cons, ih, Point.mk.injEq]
    constructor <;> ring

/-- C6: applying `next_halfedge` three times to any half-edge index returns
the same index. -/
theorem next_halfedge_three_times (e : ℕ) :
    next_halfedge (next_halfedge (next_halfedge e)) = e := by
  simp only [next_halfedge]
  split <;> split <;> split <;> omega

/-- C7: whenever `next_halfedge e` is a valid index into `triangles`,
`site_of_incoming` returns exactly `triangles[next_halfedge e]`, the
destination site of the directed half-edge `e`. -/
theorem site_of_incoming_eq_dest (t : Triangulation) (e : ℕ)
    (h : next_halfedge e < t.triangles.length) :
    site_of_incoming t e = t.triangles.get ⟨next_halfedge e, h⟩ := by
  simp [site_of_incoming, List.getD_eq_getElem?_getD, List.getElem?_eq_getElem h]

/-- A concrete triangulation used to witness the half-edge claims: two
triangles `(0,1,2)` and `(2,1,3)` glued along the edge between sites 1 and 2. -/
def wT : Triangulation :=
  { triangles := [0, 1, 2, 2, 1, 3]
    halfedges := [EMPTY, 3, EMPTY, 1, EMPTY, EMPTY]
    hull := [0, 1, 3, 2] }

/-- C7 witness: at half-edge 0 of `wT`, `site_of_incoming` is the destination
site `triangles[1] = 1`. -/
theorem site_of_incoming_eq_dest_witness :
    ∃ h : next_halfedge 0 < wT.triangles.length,
      site_of_incoming wT 0 = wT.triangles.get ⟨next_halfedge 0, h⟩ :=
  ⟨by decide, site_of_incoming_eq_dest wT 0 (by decide)⟩

/-- C5: on a non-empty list, `calculate_approximated_cetroid` is the
arithmetic mean: each coordinate is the left-to-right coordinate sum divided
by the number of points. -/
theorem calculate_approximated_cetroid_mean (points : List (Point ℚ))
    (h : points ≠ []) :
    (calculate_approximated_cetroid points).x
        = (points.map Point.x).sum / points.length ∧
      (calculate_approximated_cetroid points).y
        = (points.map Point.y).sum / points.length := by
  unfold calculate_approximated_cetroid
  rw [foldl_add_points]
  simp

/-- C5 witness: the mean of `(1,2)` and `(3,5)` as computed by
`calculate_approximated_cetroid`. -/
theorem calculate_approximated_cetroid_mean_witness :
    ([⟨1, 2⟩, ⟨3, 5⟩] : List (Point ℚ)) ≠ [] ∧
      ((calculate_approximated_cetroid [⟨1, 2⟩, ⟨3, 5⟩]).x
          = (([⟨1, 2⟩, ⟨3, 5⟩] : List (Point ℚ)).map Point.x).sum
            / ([⟨1, 2⟩, ⟨3, 5⟩] : List (Point ℚ)).length ∧
        (calculate_approximated_cetroid [⟨1, 2⟩, ⟨3, 5⟩]).y
          = (([⟨1, 2⟩, ⟨3, 5⟩] : List (Point ℚ)).map Point.y).sum
            / ([⟨1, 2⟩, ⟨3, 5⟩] : List (Point ℚ)).length) :=
  ⟨by decide, calculate_approximated_cetroid_mean [⟨1, 2⟩, ⟨3, 5⟩] (by decide)⟩

/-- `EQ_EPSILON` from `src/utils.rs`: `4. * std::f64::EPSILON`, with
`f64::EPSILON = 2⁻⁵²`, as an exact rational. -/
def EQ_EPSILON : ℚ := 4 * (1 / 2 ^ 52)

/-- `abs_diff_eq` from `src/utils.rs`, over exact rationals:
`(if a > b { a - b } else { b - a }) <= epsilon`. -/
def abs_diff_eq (a b epsilon : ℚ) : Bool :=
  decide ((if a > b then a - b else b - a) ≤ epsilon)

/-- `cicumcenter` from `src/utils.rs` (sic), over exact rationals: translate
so `a` is the origin, then solve the perpendicular-bisector system. -/
def cicumcenter (a b c : Point ℚ) : Point ℚ :=
  let b_x := b.x - a.x
  let b_y := b.y - a.y
  let c_x := c.x - a.x
  let c_y := c.y - a.y
  let bb := b_x * b_x + b_y * b_y
  let cc := c_x * c_x + c_y * c_y
  let d := 1 / (2 * (b_x * c_y - b_y * c_x))
  ⟨a.x + d * (c_y * bb - b_y * cc), a.y + d * (b_x * cc - c_x * bb)⟩

/-- Modelled from the spec: the cell-construction step (§4.3) that calls the
circumcenter is not under `src/`; per the spec it gates on a near-zero
determinant, "detected with `EQ_EPSILON`", and substitutes "the approximate
centroid of the triangle's three site positions" instead of dividing. -/
def robust_circumcenter (a b c : Point ℚ) : Point ℚ :=
  let b_x := b.x - a.x
  let b_y := b.y - a.y
  let c_x := c.x - a.x
  let c_y := c.y - a.y
  let det := 2 * (b_x * c_y - b_y * c_x)
  if abs_diff_eq det 0 EQ_EPSILON then calculate_approximated_cetroid [a, b, c]
  else cicumcenter a b c

/-- An `f64` value abstracted for claims about IEEE special values: exact
rationals extended with `nan` and the two signed infinities. Rounding and the
negative zero are not modelled; neither affects the claims proved below. -/
inductive F where
  | fin (q : ℚ)
  | inf
  | ninf
  | nan
deriving DecidableEq, Repr

/-- IEEE `>` on `F`: any comparison with `nan` is false. -/
def F.gt : F → F → Bool
  | .fin a, .fin b => decide (b < a)
  | .fin _, .ninf => true
  | .inf, .fin _ => true
  | .inf, .ninf => true
  | _, _ => false

/-- IEEE `<=` on `F`: any comparison with `nan` is false. -/
def F.le : F → F → Bool
  | .fin a, .fin b => decide (a ≤ b)
  | .fin _, .inf => true
  | .ninf, .fin _ => true
  | .ninf, .inf => true
  | .inf, .inf => true
  | .ninf, .ninf => true
  | _, _ => false

/-- IEEE subtraction on `F` (finite arithmetic exact): `nan` propagates, and
`∞ - ∞` in the same direction is `nan`. -/
def F.sub : F → F → F
  | .fin a, .fin b => .fin (a - b)
  | .fin _, .inf => .ninf
  | .fin _, .ninf => .inf
  | .inf, .fin _ => .inf
  | .inf, .ninf => .inf
  | .ninf, .fin _ => .ninf
  | .ninf, .inf => .ninf
  | _, _ => .nan

/-- IEEE addition on `F` (finite arithmetic exact): `nan` propagates, and
`∞ + (-∞)` is `nan`. -/
def F.add : F → F → F
  | .fin a, .fin b => .fin (a + b)
  | .fin _, .inf => .inf
  | .fin _, .ninf => .ninf
  | .inf, .fin _ => .inf
  | .inf, .inf => .inf
  | .ninf, .fin _ => .ninf
  | .ninf, .ninf => .ninf
  | _, _ => .nan

/-- IEEE division on `F` (finite arithmetic exact, single zero): `0/0` and
`±∞/±∞` are `nan`, division of a nonzero finite value by zero gives a signed
infinity, division by an infinity gives zero. -/
def F.div : F → F → F
  | .fin a, .fin b =>
    if b = 0 then
      if a = 0 then .nan else if 0 < a then .inf else .ninf
    else .fin (a / b)
  | .fin _, .inf => .fin 0
  | .fin _, .ninf => .fin 0
  | .inf, .fin b => if b < 0 then .ninf else .inf
  | .ninf, .fin b => if b < 0 then .inf else .ninf
  | _, _ => .nan

/-- `abs_diff_eq` from `src/utils.rs` over the IEEE-special-value model `F`:
`(if a > b { a - b } else { b - a }) <= epsilon`. -/
def abs_diff_eqF (a b epsilon : F) : Bool :=
  (if F.gt a b then F.sub a b else F.sub b a).le epsilon

/-- `calculate_approximated_cetroid` from `src/utils.rs` over the
IEEE-special-value model `F`: same fold and final divisions, with `n as f64`
the exact cast of the count. -/
def calculate_approximated_cetroidF (points : List (Point F)) : Point F :=
  let r := points.foldl
    (fun (r : Point F) p => ⟨F.add r.x p.x, F.add r.y p.y⟩) ⟨.fin 0, .fin 0⟩
  let n : F := .fin (points.length : ℚ)
  ⟨F.div r.x n, F.div r.y n⟩

/-- C2: on a collinear or near-collinear triangle — determinant
`2*(b_x*c_y - b_y*c_x)` within `EQ_EPSILON` of zero after translating `a` to
the origin — the circumcenter computation takes the detection branch and
returns the centroid substitute instead of performing the near-zero division. -/
theorem robust_circumcenter_detects (a b c : Point ℚ)
    (h : abs_diff_eq
        (2 * ((b.x - a.x) * (c.y - a.y) - (b.y - a.y) * (c.x - a.x)))
        0 EQ_EPSILON = true) :
    robust_circumcenter a b c = calculate_approximated_cetroid [a, b, c] := by
  simp only [robust_circumcenter]
  rw [if_pos h]

/-- C2 witness: the collinear triple `(0,0), (1,1), (2,2)` triggers the
detection branch. -/
theorem robust_circumcenter_detects_witness :
    (abs_diff_eq
        (2 * (((1 : ℚ) - 0) * ((2 : ℚ) - 0) - ((1 : ℚ) - 0) * ((2 : ℚ) - 0)))
        0 EQ_EPSILON = true) ∧
      robust_circumcenter ⟨0, 0⟩ ⟨1, 1⟩ ⟨2, 2⟩
        = calculate_approximated_cetroid [⟨0, 0⟩, ⟨1, 1⟩, ⟨2, 2⟩] :=
  ⟨by simp [abs_diff_eq, EQ_EPSILON],
    robust_circumcenter_detects ⟨0, 0⟩ ⟨1, 1⟩ ⟨2, 2⟩
      (by simp [abs_diff_eq, EQ_EPSILON])⟩

/-- C8: the absolute-difference tolerance test is symmetric in its first two
arguments for every value of the IEEE model, `nan` and infinities included. -/
theorem abs_diff_eq_symmetric (a b epsilon : F) :
    abs_diff_eqF a b epsilon = abs_diff_eqF b a epsilon := by
  cases a <;> cases b <;> try rfl
  rename_i qa qb
  simp only [abs_diff_eqF, F.gt, F.sub, decide_eq_true_eq]
  rcases lt_trichotomy qa qb with h | h | h
  · rw [if_neg (lt_asymm h), if_pos h]
  · subst h
    rw [if_neg (lt_irrefl qa)]
  · rw [if_pos h, if_neg (lt_asymm h)]

/-- C10: on the empty sequence the approximate-centroid function is total and
returns the point whose two coordinates are both `nan`, via the divisions
`0.0 / 0.0`. -/
theorem calculate_approximated_cetroid_empty_nan :
    calculate_approximated_cetroidF [] = ⟨F.nan, F.nan⟩ := by
  decide

/-- Inner loop of `delaunay_edge_from_voronoi_edge` (`for _ in 0..3` over
`tb`): compare `ta` against `halfedges[tb]`, advancing `tb` on a miss; returns
the found edge (if any) together with the final value of `tb`. -/
def dl_inner : ℕ → List ℕ → ℕ → ℕ → Option ℕ × ℕ
  | 0, _, _, tb => (none, tb)
  | fuel + 1, halfedges, ta, tb =>
    if ta = halfedges.getD tb EMPTY then (some ta, tb)
    else dl_inner fuel halfedges ta (next_halfedge tb)

/-- Outer loop of `delaunay_edge_from_voronoi_edge` (`for _ in 0..3` over
`ta`): run the inner loop, advancing `ta` when it misses; `tb` is carried
through exactly as in the source (it is not reset between outer passes). -/
def dl_outer : ℕ → Triangulation → ℕ → ℕ → ℕ
  | 0, _, _, _ => EMPTY
  | fuel + 1, t, ta, tb =>
    match dl_inner 3 t.halfedges ta tb with
    | (some r, _) => r
    | (none, tb2) => dl_outer fuel t (next_halfedge ta) tb2

/-- `delaunay_edge_from_voronoi_edge` from `src/utils.rs`: starting from
`ta = a*3` and `tb = b*3`, search up to 3×3 half-edge/twin comparisons for the
shared Delaunay edge, returning `EMPTY` when the range guard fails or nothing
matches. -/
def delaunay_edge_from_voronoi_edge (t : Triangulation) (a b : ℕ) : ℕ :=
  let ta := a * 3
  let tb := b * 3
  if ta < t.triangles.length ∧ tb < t.triangles.length then dl_outer 3 t ta tb
  else EMPTY

/-- `next_halfedge` stays within the half-edge's triangle. -/
theorem triangle_of_edge_next (e : ℕ) :
    triangle_of_edge (next_halfedge e) = triangle_of_edge e := by
  simp only [next_halfedge, triangle_of_edge]
  split <;> omega

/-- When the inner loop finds a match, it returns `ta` itself, the matching
`tb` position holds `ta` in the twin table, and that position is still inside
the triangle the loop started in. -/
theorem dl_inner_some (k : ℕ) (he : List ℕ) (ta tb r tb2 : ℕ)
    (h : dl_inner k he ta tb = (some r, tb2)) :
    r = ta ∧ ta = he.getD tb2 EMPTY ∧
      triangle_of_edge tb2 = triangle_of_edge tb := by
  induction k generalizing tb with
  | zero => simp [dl_inner] at h
  | succ k ih =>
    rw [dl_inner] at h
    split at h
    · obtain ⟨h1, h2⟩ := Prod.mk.injEq .. ▸ h
      obtain rfl := Option.some.injEq .. ▸ h1
      subst h2
      exact ⟨rfl, by assumption, rfl⟩
    · obtain ⟨h1, h2, h3⟩ := ih _ h
      exact ⟨h1, h2, h3.trans (triangle_of_edge_next tb)⟩

/-- When the inner loop misses, the `tb` it hands back is still inside the
triangle it started in. -/
theorem dl_inner_none (k : ℕ) (he : List ℕ) (ta tb tb2 : ℕ)
    (h : dl_inner k he ta tb = (none, tb2)) :
    triangle_of_edge tb2 = triangle_of_edge tb := by
  induction k generalizing tb with
  | zero =>
    simp only [dl_inner, Prod.mk.injEq] at h
    rw [← h.2]
  | succ k ih =>
    rw [dl_inner] at h
    split at h
    · simp at h
    · exact (ih _ h).trans (triangle_of_edge_next tb)

/-- The outer loop either returns `EMPTY` or returns a half-edge of the
triangle of the initial `ta` that the twin table pairs with a half-edge of the
triangle of the initial `tb`. -/
theorem dl_outer_spec (k : ℕ) (t : Triangulation) (ta tb : ℕ) :
    dl_outer k t ta tb = EMPTY ∨
      ∃ ta2 tb2, dl_outer k t ta tb = ta2 ∧
        ta2 = t.halfedges.getD tb2 EMPTY ∧
        triangle_of_edge ta2 = triangle_of_edge ta ∧
        triangle_of_edge tb2 = triangle_of_edge tb := by
  induction k generalizing ta tb with
  | zero => exact Or.inl rfl
  | succ k ih =>
    rw [dl_outer]
    rcases hin : dl_inner 3 t.halfedges ta tb with ⟨ofind, tbx⟩
    cases ofind with
    | some r =>
      obtain ⟨h1, h2, h3⟩ := dl_inner_some 3 t.halfedges ta tb r tbx hin
      subst h1
      exact Or.inr ⟨r, tbx, rfl, h2, rfl, h3⟩
    | none =>
      have htbx := dl_inner_none 3 t.halfedges ta tb tbx hin
      rcases ih (next_halfedge ta) tbx with hE | ⟨ta2, tb2, heq, hget, hta, htb⟩
      · exact Or.inl hE
      · exact Or.inr ⟨ta2, tb2, heq, hget,
          hta.trans (triangle_of_edge_next ta),
          htb.trans htbx⟩

/-- C1: when `a` or `b` is at least the number of triangles — equivalently
`a*3` or `b*3` is not a valid index into `triangles` — the lookup returns the
`EMPTY` sentinel. -/
theorem delaunay_edge_oob (t : Triangulation) (a b n : ℕ)
    (hn : t.triangles.length = 3 * n) (hab : n ≤ a ∨ n ≤ b) :
    delaunay_edge_from_voronoi_edge t a b = EMPTY := by
  simp only [delaunay_edge_from_voronoi_edge]
  rw [if_neg (by omega)]

/-- C1 witness: `wT` has 2 triangles, and the query `(2, 0)` is out of range
and yields `EMPTY`. -/
theorem delaunay_edge_oob_witness :
    wT.triangles.length = 3 * 2 ∧ (2 ≤ 2 ∨ 2 ≤ 0) ∧
      delaunay_edge_from_voronoi_edge wT 2 0 = EMPTY :=
  ⟨rfl, Or.inl (by decide), delaunay_edge_oob wT 2 0 2 rfl (Or.inl (by decide))⟩

/-- C9: on a triangulation satisfying the half-edge invariants (equal array
lengths, length a multiple of 3, twin involution), a non-`EMPTY` result of
`delaunay_edge_from_voronoi_edge t a b` is a valid half-edge index, belongs
to triangle `a`, and its twin belongs to triangle `b`. -/
theorem delaunay_edge_sound (t : Triangulation) (a b : ℕ)
    (hlen : t.halfedges.length = t.triangles.length)
    (h3 : t.triangles.length % 3 = 0)
    (hinv : ∀ e, e < t.halfedges.length → t.halfedges.getD e EMPTY ≠ EMPTY →
      t.halfedges.getD (t.halfedges.getD e EMPTY) EMPTY = e)
    (hne : delaunay_edge_from_voronoi_edge t a b ≠ EMPTY) :
    delaunay_edge_from_voronoi_edge t a b < t.triangles.length ∧
      triangle_of_edge (delaunay_edge_from_voronoi_edge t a b) = a ∧
      triangle_of_edge
        (t.halfedges.getD (delaunay_edge_from_voronoi_edge t a b) EMPTY) = b := by
  simp only [delaunay_edge_from_voronoi_edge] at hne ⊢
  by_cases hg : a * 3 < t.triangles.length ∧ b * 3 < t.triangles.length
  · rw [if_pos hg] at hne ⊢
    rcases dl_outer_spec 3 t (a * 3) (b * 3) with hE | ⟨ta2, tb2, heq, hget, hta, htb⟩
    · exact absurd hE hne
    · rw [heq] at hne ⊢
      simp only [triangle_of_edge] at hta htb ⊢
      have htb2lt : tb2 < t.halfedges.length := by omega
      have h5 := hinv tb2 htb2lt (by rw [← hget]; exact hne)
      rw [← hget] at h5
      refine ⟨by omega, by omega, ?_⟩
      rw [h5]
      omega
  · rw [if_neg hg] at hne
    exact absurd rfl hne

/-- C9 witness: on `wT` the query `(0, 1)` returns half-edge 1, which lies in
triangle 0 and whose twin (half-edge 3) lies in triangle 1. -/
theorem delaunay_edge_sound_witness :
    wT.halfedges.length = wT.triangles.length ∧
      wT.triangles.length % 3 = 0 ∧
      (∀ e, e < wT.halfedges.length → wT.halfedges.getD e EMPTY ≠ EMPTY →
        wT.halfedges.getD (wT.halfedges.getD e EMPTY) EMPTY = e) ∧
      delaunay_edge_from_voronoi_edge wT 0 1 ≠ EMPTY ∧
      (delaunay_edge_from_voronoi_edge wT 0 1 < wT.triangles.length ∧
        triangle_of_edge (delaunay_edge_from_voronoi_edge wT 0 1) = 0 ∧
        triangle_of_edge
          (wT.halfedges.getD (delaunay_edge_from_voronoi_edge wT 0 1) EMPTY) = 1) :=
  ⟨rfl, by decide, by decide, by decide,
    delaunay_edge_sound wT 0 1 rfl (by decide) (by decide) (by decide)⟩

/-- Modelled from the spec: the `Voronoi`/`Cell` data structures are not under
`src/`; per spec §3 a cell carries "the set of incident triangle indices",
modelled as one duplicate-free list of triangle indices per site. -/
structure Voronoi where
  cells : List (List ℕ)
  cells_nodup : ∀ c ∈ cells, c.Nodup

/-- The incident-triangle list of cell `i` (`voronoi.cell(i).triangles()`). -/
def cell_triangles (v : Voronoi) (i : ℕ) : List ℕ :=
  v.cells.getD i []

/-- `has_common_voronoi_edge` from `src/utils.rs`: count the triangles of cell
`a` that also occur among the triangles of cell `b` (the inner loop breaks at
the first match), and test whether the count reaches 2. -/
def has_common_voronoi_edge (v : Voronoi) (a b : ℕ) : Bool :=
  let common := (cell_triangles v a).foldl
    (fun common ta =>
      if (cell_triangles v b).any fun tb => ta == tb then common + 1 else common)
    0
  decide (common ≥ 2)

/-- The counting fold of `has_common_voronoi_edge` is `countP`. -/
theorem foldl_count (p : ℕ → Bool) (l : List ℕ) (init : ℕ) :
    l.foldl (fun common ta => if p ta then common + 1 else common) init
      = init + l.countP p := by
  induction l generalizing init with
  | nil => simp
  | cons x xs ih =>
    simp only [List.foldl_cons, List.countP_cons, ih]
    by_cases h : p x = true <;> simp [h] <;> omega

/-- Every incident-triangle list of a diagram is duplicate-free, the
out-of-range default included. -/
theorem cell_triangles_nodup (v : Voronoi) (i : ℕ) :
    (cell_triangles v i).Nodup := by
  unfold cell_triangles
  by_cases h : i < v.cells.length
  · rw [List.getD_eq_getElem?_getD, List.getElem?_eq_getElem h]
    exact v.cells_nodup _ (List.getElem_mem h)
  · rw [List.getD_eq_default _ _ (le_of_not_lt h)]
    exact List.nodup_nil

/-- Counting the members of a duplicate-free list `A` that also occur in `B`
computes the cardinality of the intersection of the two underlying sets. -/
theorem countP_mem_eq_inter_card (A B : List ℕ) (hA : A.Nodup) :
    (A.countP fun ta => B.any fun tb => ta == tb)
      = (A.toFinset ∩ B.toFinset).card := by
  induction A with
  | nil => simp
  | cons x xs ih =>
    rcases List.nodup_cons.mp hA with ⟨hx, hxs⟩
    rw [List.countP_cons, ih hxs, List.toFinset_cons]
    by_cases hmem : x ∈ B
    · have hany : (B.any fun tb => x == tb) = true := by
        simp only [List.any_eq_true, beq_iff_eq]
        exact ⟨x, hmem, rfl⟩
      rw [hany, Finset.insert_inter_of_mem (List.mem_toFinset.mpr hmem),
        Finset.card_insert_of_not_mem
          (fun hc => hx (List.mem_toFinset.mp (Finset.mem_inter.mp hc).1))]
      rfl
    · have hany : (B.any fun tb => x == tb) = false := by
        simp only [List.any_eq_false, beq_iff_eq]
        intro tb htb heq
        exact hmem (heq ▸ htb)
      rw [hany,
        Finset.insert_inter_of_not_mem (fun hc => hmem (List.mem_toFinset.mp hc))]
      simp

/-- `has_common_voronoi_edge` computes the test
`2 ≤ |triangles(a) ∩ triangles(b)|`. -/
theorem has_common_eq_card (v : Voronoi) (a b : ℕ) :
    has_common_voronoi_edge v a b
      = decide (2 ≤
          ((cell_triangles v a).toFinset ∩ (cell_triangles v b).toFinset).card) := by
  unfold has_common_voronoi_edge
  rw [foldl_count, Nat.zero_add,
    countP_mem_eq_inter_card _ _ (cell_triangles_nodup v a)]

/-- C3: for valid site indices into a diagram (whose cells carry
duplicate-free incident-triangle lists by the data-model invariant),
`has_common_voronoi_edge` is true exactly when the two cells share at least
two incident triangles. -/
theorem has_common_voronoi_edge_iff_card (v : Voronoi) (a b : ℕ)
    (ha : a < v.cells.length) (hb : b < v.cells.length) :
    has_common_voronoi_edge v a b = true ↔
      2 ≤ ((cell_triangles v a).toFinset ∩ (cell_triangles v b).toFinset).card := by
  rw [has_common_eq_card, decide_eq_true_iff]

/-- C4: `has_common_voronoi_edge` is symmetric in the two site indices. -/
theorem has_common_voronoi_edge_symm (v : Voronoi) (a b : ℕ) :
    has_common_voronoi_edge v a b = has_common_voronoi_edge v b a := by
  rw [has_common_eq_card, has_common_eq_card, Finset.inter_comm]

/-- A concrete diagram for the adjacency witnesses: two cells sharing the two
incident triangles 1 and 2. -/
def wV : Voronoi :=
  { cells := [[0, 1, 2], [1, 2, 3]]
    cells_nodup := by decide }

/-- C3 witness: cells 0 and 1 of `wV` are valid and the shared-edge test
agrees with the intersection cardinality. -/
theorem has_common_voronoi_edge_iff_card_witness :
    0 < wV.cells.length ∧ 1 < wV.cells.length ∧
      (has_common_voronoi_edge wV 0 1 = true ↔
        2 ≤ ((cell_triangles wV 0).toFinset ∩ (cell_triangles wV 1).toFinset).card) :=
  ⟨by decide, by decide,
    has_common_voronoi_edge_iff_card wV 0 1 (by decide) (by decide)⟩
